import Mathlib

/-!
Verification of `fms_iterable.h`, a lazy-sequence (iterable/cursor) library.

A cursor is modelled by three operations mirroring the C++ contract:
`operator bool()` (has more), `operator*()` (current element) and
`operator++()` (advance).  Finite inner sequences are modelled by the
canonical list cursor: a `List α` whose `bool` is non-emptiness, whose
`*` is the head and whose `++` is the tail — exactly the behaviour of a
`counted(ptr(a), N)` cursor over an array.  Each adaptor below is a
direct translation of the member functions of the corresponding class
template in the header, specialised (where its inner iterable is
generic) to the list cursor or kept generic over a state type.
-/

set_option autoImplicit false

universe u v

namespace fms

/-- List cursor: `operator bool()` of a bounded cursor, true while elements remain. -/
def listHasMore {α : Type u} (l : List α) : Bool := !l.isEmpty

/-- List cursor: `operator*()`, the current element (default if exhausted, which
the contract forbids reading anyway). -/
def listCurr {α : Type u} [Inhabited α] (l : List α) : α := l.headI

/-- List cursor: `operator++()`, advance to the next element. -/
def listNext {α : Type u} (l : List α) : List α := l.tail

/-- The standard consumption loop `while (i) { use *i; ++i; }` over a generic
cursor given by its three operations, with explicit fuel (any fuel at least the
sequence length collects everything). -/
def collect {σ : Type u} {α : Type v} (hm : σ → Bool) (cu : σ → α) (nx : σ → σ) :
    Nat → σ → List α
  | 0, _ => []
  | fuel + 1, s => if hm s then cu s :: collect hm cu nx fuel (nx s) else []

/-- The generic branch of `size` (lines 185-200): `while (i) { ++i; ++n; } return n;`,
over a generic cursor, with explicit fuel. -/
def sizeLoop {σ : Type u} (hm : σ → Bool) (nx : σ → σ) : Nat → σ → Nat → Nat
  | 0, _, n => n
  | fuel + 1, s, n => if hm s then sizeLoop hm nx fuel (nx s) (n + 1) else n

/-- `size(i, n)` (lines 185-200) at the list cursor: counts the remaining
elements on top of the offset `n`.  The generic loop terminates structurally
here because the list cursor is finite. -/
def size {α : Type u} : List α → Nat → Nat
  | [], n => n
  | _ :: i, n => size i (n + 1)

/-- `drop(i, n)` (lines 203-216), generic branch: `while (n-- && i) ++i; return i;`,
at the list cursor. -/
def drop {α : Type u} : Nat → List α → List α
  | 0, i => i
  | _ + 1, [] => []
  | n + 1, _ :: i => drop n i

/-- The final `return !!i <=> !!j;` of `compare`: three-way comparison of the
two exhaustion booleans (`false < true`). -/
def boolCmp : Bool → Bool → Ordering
  | false, false => Ordering.eq
  | false, true => Ordering.lt
  | true, false => Ordering.gt
  | true, true => Ordering.eq

/-- `compare(i, j, n)` (lines 81-92): lexicographic three-way comparison,
`while (n-- && i && j) { cmp = *i++ <=> *j++; if (cmp != 0) return cmp; }
return !!i <=> !!j;` at the list cursor, generic over the element spaceship
`cmp`. -/
def compare {α : Type u} (cmp : α → α → Ordering) : Nat → List α → List α → Ordering
  | fuel + 1, a :: i, b :: j =>
    match cmp a b with
    | Ordering.eq => compare cmp fuel i j
    | c => c
  | _, i, j => boolCmp (!i.isEmpty) (!j.isEmpty)

/-- `equal(i, j, n)` (lines 94-98): `compare(i, j, n) == 0`. -/
def equal {α : Type u} (cmp : α → α → Ordering) (fuel : Nat) (i j : List α) : Bool :=
  compare cmp fuel i j == Ordering.eq

/-- A concrete element spaceship on `Nat`, used to instantiate `compare`. -/
def cmpN (a b : Nat) : Ordering :=
  if a < b then Ordering.lt else if b < a then Ordering.gt else Ordering.eq

/-- The `counted` adaptor (lines 561-690): an inner cursor (of arbitrary state
type `σ`) together with the remaining-count `n`. -/
structure counted (σ : Type u) where
  i : σ
  n : Nat
deriving DecidableEq

/-- `counted::operator bool()`: `n != 0`. -/
def counted.hasMore {σ : Type u} (c : counted σ) : Bool := c.n != 0

/-- `counted::operator++()`: `if (operator bool()) { I::operator++(); --n; }`,
parametrised by the inner cursor's advance `nx`. -/
def counted.inc {σ : Type u} (nx : σ → σ) (c : counted σ) : counted σ :=
  if c.n != 0 then ⟨nx c.i, c.n - 1⟩ else c

/-- `filter::next()` (lines 1104-1109): `while (i && !p(*i)) ++i;` — the
skip-ahead run, at the list cursor.  The filter's state is its inner cursor
(the predicate is part of the type). -/
def filter.skip {α : Type u} (p : α → Bool) : List α → List α
  | [] => []
  | a :: i => if p a then a :: i else filter.skip p i

/-- `filter::filter(p, i)` constructor: stores the inner cursor, then runs the
skip-ahead. -/
def filter.mk {α : Type u} (p : α → Bool) (i : List α) : List α := filter.skip p i

/-- `filter`'s copy constructor: copies the inner cursor, then runs the
skip-ahead again. -/
def filter.copy {α : Type u} (p : α → Bool) (i : List α) : List α := filter.skip p i

/-- `filter::operator bool()`: the inner cursor's state. -/
def filter.hasMore {α : Type u} (i : List α) : Bool := !i.isEmpty

/-- `filter::operator*()`: the inner cursor's current element. -/
def filter.curr {α : Type u} [Inhabited α] (i : List α) : α := i.headI

/-- `filter::operator++()`: `++i; next();`. -/
def filter.inc {α : Type u} (p : α → Bool) (i : List α) : List α :=
  filter.skip p i.tail

/-- The filter invariant: the inner cursor is exhausted or sits on an element
satisfying the predicate. -/
def filter.inv {α : Type u} (p : α → Bool) : List α → Bool
  | [] => true
  | a :: _ => p a

/-- The `fold` adaptor (lines 1215-1266): inner cursor `i` (here the list
cursor) and accumulator `t` (the binary operator is carried by `fold.inc`). -/
structure fold (α : Type u) where
  i : List α
  t : α
deriving DecidableEq

/-- `fold::operator bool()`: `i.operator bool()` — mirrors the inner cursor. -/
def fold.hasMore {α : Type u} (s : fold α) : Bool := !s.i.isEmpty

/-- `fold::operator*()`: the accumulator `t`, not the inner element. -/
def fold.curr {α : Type u} (s : fold α) : α := s.t

/-- `fold::operator++()`: `if (i) { t = op(t, *i); ++i; }`. -/
def fold.inc {α : Type u} (op : α → α → α) (s : fold α) : fold α :=
  match s.i with
  | [] => s
  | a :: i => ⟨i, op s.t a⟩

/-- Modelled from the amended claim's words: the running accumulations of `op`
over a list, seed first, one per inner element (the accumulation past the last
element is not included). -/
def runnings {α : Type u} (op : α → α → α) : α → List α → List α
  | _, [] => []
  | t, a :: i => t :: runnings op (op t a) i

/-- The `concatenate2` adaptor (lines 873-922): the two inner cursors, here
list cursors. -/
structure concatenate2 (α : Type u) where
  i0 : List α
  i1 : List α
deriving DecidableEq

/-- `concatenate2::operator bool()`: `i0 || i1`. -/
def concatenate2.hasMore {α : Type u} (s : concatenate2 α) : Bool :=
  !s.i0.isEmpty || !s.i1.isEmpty

/-- `concatenate2::operator*()`: `i0 ? *i0 : *i1`. -/
def concatenate2.curr {α : Type u} [Inhabited α] (s : concatenate2 α) : α :=
  if !s.i0.isEmpty then s.i0.headI else s.i1.headI

/-- `concatenate2::operator++()`: `if (i0) ++i0; else ++i1;`. -/
def concatenate2.inc {α : Type u} (s : concatenate2 α) : concatenate2 α :=
  if !s.i0.isEmpty then ⟨s.i0.tail, s.i1⟩ else ⟨s.i0, s.i1.tail⟩

/-- The `choose` generator (lines 383-435): state `(n, k, nk)`, constructed as
`(n, 0, 1)`.  Modelled in exact (unbounded) natural arithmetic, as the claim
stipulates. -/
structure choose where
  n : Nat
  k : Nat
  nk : Nat
deriving DecidableEq

/-- `choose::choose(n)`: state `(n, 0, 1)`.  (Named `init` because `choose.mk`
is taken by the structure's anonymous constructor.) -/
def choose.init (n : Nat) : choose := ⟨n, 0, 1⟩

/-- `choose::operator bool()`: `k <= n`. -/
def choose.hasMore (c : choose) : Bool := decide (c.k ≤ c.n)

/-- `choose::operator*()`: `nk`. -/
def choose.curr (c : choose) : Nat := c.nk

/-- `choose::operator++()`: `if (operator bool()) { nk *= n - k; ++k; nk /= k; }`. -/
def choose.inc (c : choose) : choose :=
  if c.k ≤ c.n then ⟨c.n, c.k + 1, c.nk * (c.n - c.k) / (c.k + 1)⟩ else c

/-- The `merge2` adaptor (lines 935-1035): the two inner (list) cursors and the
member `_0`, the bias flag — `true` means "use i0". -/
structure merge2 (α : Type u) where
  i0 : List α
  i1 : List α
  f : Bool
deriving DecidableEq

/-- `merge2::merge2(i0, i1)` (lines 948-965): sets the bias flag from the
if-chain `if (i0 && i1) { _0 = !(*i1 < *i0); } else if (i0) _0 = true;
else _0 = false;`, parametrised by the element comparison `lt`. -/
def merge2.init {α : Type u} (lt : α → α → Bool) : List α → List α → merge2 α
  | a :: i0, b :: i1 =>
    if lt b a then ⟨a :: i0, b :: i1, false⟩ else ⟨a :: i0, b :: i1, true⟩
  | a :: i0, [] => ⟨a :: i0, [], true⟩
  | [], i1 => ⟨[], i1, false⟩

/-- `merge2::operator bool()`: `i0 || i1`. -/
def merge2.hasMore {α : Type u} (s : merge2 α) : Bool :=
  !s.i0.isEmpty || !s.i1.isEmpty

/-- `merge2::operator*()` (lines 978-993): the strictly-lesser current element,
or on equivalence the element of the side selected by the bias flag; when only
one side has more, its element. -/
def merge2.curr {α : Type u} [Inhabited α] (lt : α → α → Bool) (s : merge2 α) : α :=
  match s.i0, s.i1 with
  | a :: _, b :: _ =>
    if lt a b then a else if lt b a then b else if s.f then a else b
  | a :: _, [] => a
  | [], i1 => i1.headI

/-- `merge2::operator++()` (lines 994-1026): advance the strictly-lesser side
(bias flag untouched); on equivalence advance the side selected by the bias
flag and flip the flag; when only one side has more, advance it and set the
flag to that side. -/
def merge2.inc {α : Type u} (lt : α → α → Bool) (s : merge2 α) : merge2 α :=
  match s.i0, s.i1 with
  | a :: i0, b :: i1 =>
    if lt a b then ⟨i0, b :: i1, s.f⟩
    else if lt b a then ⟨a :: i0, i1, s.f⟩
    else if s.f then ⟨i0, b :: i1, !s.f⟩ else ⟨a :: i0, i1, !s.f⟩
  | _ :: i0, [] => ⟨i0, [], true⟩
  | [], _ :: i1 => ⟨[], i1, false⟩
  | [], [] => s

/-- A concrete strict comparison on `Nat`, used to instantiate `merge2`. -/
def ltN (a b : Nat) : Bool := decide (a < b)

/-- The cyclic-repetition adaptor, class `repeat` (lines 708-764), renamed
because `repeat` is reserved in Lean: the running source cursor `i` and the
saved start `i0`. -/
structure cyclic (α : Type u) where
  i : List α
  i0 : List α
deriving DecidableEq

/-- `repeat::repeat(i)`: saves the start. -/
def cyclic.init {α : Type u} (l : List α) : cyclic α := ⟨l, l⟩

/-- `repeat::operator bool()`: `i.operator bool()` — `repeat(empty) = empty`. -/
def cyclic.hasMore {α : Type u} (s : cyclic α) : Bool := !s.i.isEmpty

/-- `repeat::operator*()`: the source's current element. -/
def cyclic.curr {α : Type u} [Inhabited α] (s : cyclic α) : α := s.i.headI

/-- `repeat::operator++()`: `if (!++i) { i = i0; }` — advance the source and
reset it to the saved start when it becomes exhausted. -/
def cyclic.inc {α : Type u} (s : cyclic α) : cyclic α :=
  let i := s.i.tail
  if i.isEmpty then ⟨s.i0, s.i0⟩ else ⟨i, s.i0⟩

end fms

namespace fms

theorem listNext_iterate {α : Type u} (k : Nat) (l : List α) :
    listNext^[k] l = List.drop k l := by
  induction k generalizing l with
  | zero => simp
  | succ k ih =>
    rw [Function.iterate_succ_apply, ih]
    cases l with
    | nil => simp [listNext]
    | cons a l => simp [listNext]

theorem drop_eq_listDrop {α : Type u} (k : Nat) (l : List α) :
    drop k l = List.drop k l := by
  induction k generalizing l with
  | zero => simp [drop]
  | succ k ih =>
    cases l with
    | nil => simp [drop]
    | cons a l => simp [drop, ih]

/-- C8: `drop(s, k)` returns the cursor obtained by advancing `s` exactly `k`
times when `k ≤ L` (the length of `s`), and the fully exhausted end cursor —
`s` advanced exactly `L` times, the empty cursor — when `k > L`. -/
theorem C8_drop_min {α : Type u} (l : List α) (k : Nat) :
    (k ≤ l.length → drop k l = listNext^[k] l)
    ∧ (l.length < k →
        drop k l = listNext^[l.length] l ∧ drop k l = []) := by
  refine ⟨fun _ => ?_, fun h => ?_⟩
  · rw [drop_eq_listDrop, listNext_iterate]
  · constructor
    · rw [drop_eq_listDrop, listNext_iterate, List.drop_length,
        List.drop_eq_nil_iff.mpr (Nat.le_of_lt h)]
    · rw [drop_eq_listDrop, List.drop_eq_nil_iff.mpr (Nat.le_of_lt h)]

/-- Witness for C8 at `l = [1, 2, 3]`, `k = 2` and `k = 5`. -/
theorem C8_drop_min_witness :
    drop 2 [1, 2, 3] = listNext^[2] [(1 : Nat), 2, 3]
    ∧ drop 5 [(1 : Nat), 2, 3] = [] :=
  ⟨(C8_drop_min [1, 2, 3] 2).1 (by decide),
   ((C8_drop_min [1, 2, 3] 5).2 (by decide)).2⟩

/-- C9: for every element comparison that is reflexively `eq`, `compare(s, s)`
is the "equal" ordering and `equal(s, s)` is true, for every bound `n` and
every list `s` — the two arguments are independent copies of the same cursor. -/
theorem C9_compare_refl {α : Type u} (cmp : α → α → Ordering)
    (h : ∀ a, cmp a a = Ordering.eq) (fuel : Nat) (s : List α) :
    compare cmp fuel s s = Ordering.eq ∧ equal cmp fuel s s = true := by
  have key : ∀ f (t : List α), compare cmp f t t = Ordering.eq := by
    intro f
    induction f with
    | zero => intro t; cases t <;> rfl
    | succ f ih =>
      intro t
      cases t with
      | nil => rfl
      | cons a t => simp only [compare, h a]; exact ih t
  exact ⟨key fuel s, by rw [equal, key fuel s]; rfl⟩

/-- Witness for C9 at `cmp = cmpN`, `s = [1, 2, 3]`, `n = 10`. -/
theorem C9_compare_refl_witness :
    compare cmpN 10 [1, 2, 3] [1, 2, 3] = Ordering.eq
    ∧ equal cmpN 10 [1, 2, 3] [1, 2, 3] = true :=
  C9_compare_refl cmpN (fun a => by simp [cmpN]) 10 [1, 2, 3]

/-- C10: the second parameter of `size` is a pure additive offset:
`size(i, n) = size(i, 0) + n`, and hence `size(i, size(j)) = size(i) + size(j)`. -/
theorem C10_size_offset {α : Type u} (i j : List α) (n : Nat) :
    size i n = size i 0 + n ∧ size i (size j 0) = size i 0 + size j 0 := by
  have key : ∀ (t : List α) (m : Nat), size t m = size t 0 + m := by
    intro t
    induction t with
    | nil => intro m; simp [size]
    | cons a t ih =>
      intro m
      show size t (m + 1) = size t 1 + m
      rw [ih (m + 1), ih 1]
      omega
  exact ⟨key i n, key i (size j 0)⟩

/-- C5: for every counted sequence, has-more holds iff the remaining count is
nonzero; advancing at count 0 is a no-op on both components; advancing at a
nonzero count advances the inner cursor and decrements the count by one; and
consequently advancing `n + k` times from count `n` lands exactly on the inner
cursor advanced `n` times with count 0, for every overshoot `k`. -/
theorem C5_counted_contract {σ : Type u} (nx : σ → σ) (i : σ) (n : Nat) :
    (counted.hasMore ⟨i, n⟩ = true ↔ n ≠ 0)
    ∧ counted.inc nx ⟨i, 0⟩ = ⟨i, 0⟩
    ∧ (n ≠ 0 → counted.inc nx ⟨i, n⟩ = ⟨nx i, n - 1⟩)
    ∧ ∀ k, (counted.inc nx)^[n + k] ⟨i, n⟩ = ⟨nx^[n] i, 0⟩ := by
  have fixed : ∀ k (s : σ), (counted.inc nx)^[k] ⟨s, 0⟩ = ⟨s, 0⟩ := by
    intro k s
    exact Function.iterate_fixed rfl k
  refine ⟨by simp [counted.hasMore], rfl, fun h => by simp [counted.inc, h], ?_⟩
  intro k
  induction n generalizing i with
  | zero => simpa using fixed k i
  | succ n ih =>
    have step : counted.inc nx ⟨i, n + 1⟩ = ⟨nx i, n⟩ := by
      simp [counted.inc]
    rw [Nat.succ_add, Function.iterate_succ_apply, step, ih (nx i),
      Function.iterate_succ_apply]

/-- Witness for C5 at `σ = Nat`, `nx = Nat.succ`, `i = 0`, `n = 2`, `k = 3`. -/
theorem C5_counted_contract_witness :
    counted.inc Nat.succ ⟨0, 2⟩ = (⟨Nat.succ 0, 2 - 1⟩ : counted Nat)
    ∧ (counted.inc Nat.succ)^[2 + 3] (⟨0, 2⟩ : counted Nat) = ⟨Nat.succ^[2] 0, 0⟩ :=
  ⟨(C5_counted_contract Nat.succ 0 2).2.2.1 (by decide),
   (C5_counted_contract Nat.succ 0 2).2.2.2 3⟩

theorem filter_inv_skip {α : Type u} (p : α → Bool) (l : List α) :
    filter.inv p (filter.skip p l) = true := by
  induction l with
  | nil => rfl
  | cons a l ih =>
    by_cases h : p a = true
    · simp [filter.skip, h, filter.inv]
    · simp only [filter.skip, h]
      simpa [Bool.not_eq_true] using ih

theorem filter_skip_of_inv {α : Type u} (p : α → Bool) (l : List α)
    (h : filter.inv p l = true) : filter.skip p l = l := by
  cases l with
  | nil => rfl
  | cons a l => simp_all [filter.inv, filter.skip]

/-- C4: the filter invariant — inner cursor exhausted or on an element
satisfying `p` — is established by the constructor's skip-ahead and by every
advance; on a state satisfying it the copy constructor's re-run of the
skip-ahead is a no-op, so a copy equals the original; and whenever the filter
reports `has_more() == true`, its current element satisfies `p`. -/
theorem C4_filter_invariant {α : Type u} [Inhabited α] (p : α → Bool) (l s : List α) :
    filter.inv p (filter.mk p l) = true
    ∧ filter.inv p (filter.inc p s) = true
    ∧ (filter.inv p s = true → filter.copy p s = s)
    ∧ (filter.inv p s = true → filter.hasMore s = true → p (filter.curr s) = true) := by
  refine ⟨filter_inv_skip p l, filter_inv_skip p s.tail,
    fun h => filter_skip_of_inv p s h, fun h hm => ?_⟩
  cases s with
  | nil => simp [filter.hasMore] at hm
  | cons a s => simpa [filter.inv, filter.curr] using h

/-- C1 counterexample: `fold(+, seed 0)` over `[1, 2, 3, 4]` yields exactly
`0, 1, 3, 6` — four values, the same number as the inner sequence — and not the
claimed five values `0, 1, 3, 6, 10`: after the fourth advance the accumulator
holds 10 but `operator bool()` already mirrors the exhausted inner cursor, so
10 is never yielded. -/
theorem C1_fold_counterexample :
    collect fold.hasMore fold.curr (fold.inc (fun a b => a + b)) 100
        (⟨[1, 2, 3, 4], 0⟩ : fold Nat) = [0, 1, 3, 6]
    ∧ collect fold.hasMore fold.curr (fold.inc (fun a b => a + b)) 100
        (⟨[1, 2, 3, 4], 0⟩ : fold Nat) ≠ [0, 1, 3, 6, 10] := by
  constructor
  · rfl
  · decide

theorem runnings_length {α : Type u} (op : α → α → α) (t : α) (l : List α) :
    (runnings op t l).length = l.length := by
  induction l generalizing t with
  | nil => rfl
  | cons a l ih => simp [runnings, ih]

/-- C1 (amended): for every binary operator, seed and finite inner sequence,
the fold cursor yields the running accumulations with the seed as the first
yielded value, and yields exactly as many elements as the inner sequence has
(the final accumulation is computed but never yielded, since `has_more()`
mirrors the inner cursor); in particular `fold(+, 0)` over `[1, 2, 3, 4]`
yields exactly `0, 1, 3, 6`. -/
theorem C1_fold_yields_runnings {α : Type u} (op : α → α → α) (t : α) (l : List α)
    (fuel : Nat) (h : l.length ≤ fuel) :
    collect fold.hasMore fold.curr (fold.inc op) fuel ⟨l, t⟩ = runnings op t l
    ∧ (runnings op t l).length = l.length := by
  refine ⟨?_, runnings_length op t l⟩
  induction l generalizing t fuel with
  | nil =>
    cases fuel with
    | zero => rfl
    | succ fuel => simp [collect, fold.hasMore, runnings]
  | cons a l ih =>
    cases fuel with
    | zero => exact absurd h (by simp)
    | succ fuel =>
      have : collect fold.hasMore fold.curr (fold.inc op) (fuel + 1) ⟨a :: l, t⟩
          = t :: collect fold.hasMore fold.curr (fold.inc op) fuel ⟨l, op t a⟩ := by
        simp [collect, fold.hasMore, fold.curr, fold.inc]
      rw [this, runnings, ih (op t a) fuel (by simpa using h)]

/-- Witness for C1's amended theorem at `op = +`, `t = 0`, `l = [1, 2, 3, 4]`,
`fuel = 10`. -/
theorem C1_fold_yields_runnings_witness :
    collect fold.hasMore fold.curr (fold.inc (fun a b : Nat => a + b)) 10
        (⟨[1, 2, 3, 4], 0⟩ : fold Nat) = runnings (fun a b : Nat => a + b) 0 [1, 2, 3, 4]
    ∧ (runnings (fun a b : Nat => a + b) 0 [1, 2, 3, 4]).length = 4 :=
  C1_fold_yields_runnings (fun a b : Nat => a + b) 0 [1, 2, 3, 4] 10 (by decide)

theorem collect_concatenate2_nil {α : Type u} [Inhabited α] (b : List α) (fuel : Nat)
    (h : b.length ≤ fuel) :
    collect concatenate2.hasMore concatenate2.curr concatenate2.inc fuel ⟨[], b⟩ = b := by
  induction b generalizing fuel with
  | nil =>
    cases fuel with
    | zero => rfl
    | succ fuel => simp [collect, concatenate2.hasMore]
  | cons y b ih =>
    cases fuel with
    | zero => exact absurd h (by simp)
    | succ fuel =>
      have : collect concatenate2.hasMore concatenate2.curr concatenate2.inc
          (fuel + 1) ⟨[], y :: b⟩
          = y :: collect concatenate2.hasMore concatenate2.curr concatenate2.inc
              fuel ⟨[], b⟩ := by
        simp [collect, concatenate2.hasMore, concatenate2.curr, concatenate2.inc]
      rw [this, ih fuel (by simpa using h)]

theorem collect_concatenate2 {α : Type u} [Inhabited α] (a b : List α) (fuel : Nat)
    (h : a.length + b.length ≤ fuel) :
    collect concatenate2.hasMore concatenate2.curr concatenate2.inc fuel ⟨a, b⟩
      = a ++ b := by
  induction a generalizing fuel with
  | nil => simpa using collect_concatenate2_nil b fuel (by simpa using h)
  | cons x a ih =>
    cases fuel with
    | zero => exact absurd h (by simp)
    | succ fuel =>
      have : collect concatenate2.hasMore concatenate2.curr concatenate2.inc
          (fuel + 1) ⟨x :: a, b⟩
          = x :: collect concatenate2.hasMore concatenate2.curr concatenate2.inc
              fuel ⟨a, b⟩ := by
        simp [collect, concatenate2.hasMore, concatenate2.curr, concatenate2.inc]
      rw [this, ih fuel (by simp at h; omega)]
      rfl

theorem sizeLoop_eq_collect_length {σ : Type u} {α : Type v}
    (hm : σ → Bool) (cu : σ → α) (nx : σ → σ) (fuel : Nat) (s : σ) (n : Nat) :
    sizeLoop hm nx fuel s n = n + (collect hm cu nx fuel s).length := by
  induction fuel generalizing s n with
  | zero => rfl
  | succ fuel ih =>
    by_cases h : hm s = true
    · simp only [sizeLoop, collect, h, if_pos]
      rw [ih (nx s) (n + 1)]
      simp; omega
    · simp only [sizeLoop, collect, h]
      simp

/-- C6: for finite sequences `a` of length `m` and `b` of length `n`,
traversing `concatenate2(a, b)` yields every element of `a` in order followed
by every element of `b` in order (so no element of `b` appears before `a` is
exhausted), and `size` of the concatenation is `m + n`. -/
theorem C6_concatenate2_append {α : Type u} [Inhabited α] (a b : List α) (fuel : Nat)
    (h : a.length + b.length ≤ fuel) :
    collect concatenate2.hasMore concatenate2.curr concatenate2.inc fuel ⟨a, b⟩
      = a ++ b
    ∧ sizeLoop concatenate2.hasMore concatenate2.inc fuel ⟨a, b⟩ 0
      = a.length + b.length := by
  refine ⟨collect_concatenate2 a b fuel h, ?_⟩
  rw [sizeLoop_eq_collect_length concatenate2.hasMore concatenate2.curr
    concatenate2.inc fuel ⟨a, b⟩ 0, collect_concatenate2 a b fuel h]
  simp

/-- Witness for C6 at `a = [1, 2]`, `b = [3]`, `fuel = 10`. -/
theorem C6_concatenate2_append_witness :
    collect concatenate2.hasMore concatenate2.curr concatenate2.inc 10
        (⟨[1, 2], [3]⟩ : concatenate2 Nat) = [1, 2] ++ [3]
    ∧ sizeLoop concatenate2.hasMore concatenate2.inc 10
        (⟨[1, 2], [3]⟩ : concatenate2 Nat) 0 = 2 + 1 :=
  C6_concatenate2_append [1, 2] [3] 10 (by decide)

theorem choose_recurrence (n k : Nat) :
    Nat.choose n k * (n - k) = Nat.choose n (k + 1) * (k + 1) :=
  (Nat.choose_succ_right_eq n k).symm

theorem choose_inc_state (n k : Nat) (h : k ≤ n) :
    choose.inc ⟨n, k, Nat.choose n k⟩ = ⟨n, k + 1, Nat.choose n (k + 1)⟩ := by
  simp only [choose.inc, if_pos h]
  rw [choose_recurrence n k, Nat.mul_div_cancel _ (Nat.succ_pos k)]

theorem choose_iterate (n : Nat) : ∀ j, j ≤ n + 1 →
    choose.inc^[j] (choose.init n) = ⟨n, j, Nat.choose n j⟩ := by
  intro j
  induction j with
  | zero => intro _; simp [choose.init]
  | succ j ih =>
    intro h
    have hj : j ≤ n := Nat.lt_succ_iff.mp h
    rw [Function.iterate_succ_apply', ih (Nat.le_succ_of_le hj),
      choose_inc_state n j hj]

theorem choose_iterate_past (n : Nat) : ∀ j, n + 1 ≤ j →
    choose.inc^[j] (choose.init n) = ⟨n, n + 1, 0⟩ := by
  intro j h
  obtain ⟨m, rfl⟩ := Nat.exists_eq_add_of_le h
  rw [Nat.add_comm, Function.iterate_add_apply,
    choose_iterate n (n + 1) (Nat.le_refl _),
    Nat.choose_eq_zero_of_lt (Nat.lt_succ_self n)]
  exact Function.iterate_fixed (by simp [choose.inc]) m

theorem choose_collect_aux (n : Nat) : ∀ fuel k, k ≤ n + 1 → n + 1 - k ≤ fuel →
    collect choose.hasMore choose.curr choose.inc fuel ⟨n, k, Nat.choose n k⟩
      = (List.range' k (n + 1 - k)).map (Nat.choose n) := by
  intro fuel
  induction fuel with
  | zero =>
    intro k _ hf
    have : n + 1 - k = 0 := Nat.le_zero.mp hf
    rw [this]
    rfl
  | succ fuel ih =>
    intro k hk hf
    rcases Nat.lt_or_ge k (n + 1) with hlt | hge
    · have hkn : k ≤ n := Nat.lt_succ_iff.mp hlt
      have hrange : n + 1 - k = (n - k) + 1 := by omega
      have : collect choose.hasMore choose.curr choose.inc (fuel + 1)
          ⟨n, k, Nat.choose n k⟩
          = Nat.choose n k :: collect choose.hasMore choose.curr choose.inc fuel
              (choose.inc ⟨n, k, Nat.choose n k⟩) := by
        simp [collect, choose.hasMore, choose.curr, hkn]
      rw [this, choose_inc_state n k hkn,
        ih (k + 1) (Nat.succ_le_succ hkn) (by omega), hrange, List.range'_succ]
      simp
    · have hk1 : k = n + 1 := Nat.le_antisymm hk hge
      subst hk1
      have hm : ∀ x, choose.hasMore ⟨n, n + 1, x⟩ = false := by
        intro x
        simp [choose.hasMore]
      simp [collect, hm]

theorem list_range_map_sum (f : Nat → Nat) (m : Nat) :
    ((List.range m).map f).sum = ∑ x in Finset.range m, f x := by
  induction m with
  | zero => rfl
  | succ m ih => rw [List.range_succ, Finset.sum_range_succ, ← ih]; simp

/-- C3: for every `n ≥ 0` in exact natural arithmetic, `choose(n)` reports
has-more exactly while the state's `k ≤ n`, i.e. exactly for the first `n + 1`
positions; it yields exactly the `n + 1` binomial coefficients `C(n, 0), …,
C(n, n)`; every division `nk*(n-k)/(k+1)` performed by the recurrence is exact;
and the yielded values sum to `2 ^ n`. -/
theorem C3_choose_row (n fuel : Nat) (h : n + 1 ≤ fuel) :
    collect choose.hasMore choose.curr choose.inc fuel (choose.init n)
      = (List.range (n + 1)).map (Nat.choose n)
    ∧ (collect choose.hasMore choose.curr choose.inc fuel (choose.init n)).length
      = n + 1
    ∧ (∀ j, choose.hasMore (choose.inc^[j] (choose.init n)) = true ↔ j ≤ n)
    ∧ (∀ k, k ≤ n → (k + 1) ∣ Nat.choose n k * (n - k))
    ∧ (collect choose.hasMore choose.curr choose.inc fuel (choose.init n)).sum
      = 2 ^ n := by
  have hcollect : collect choose.hasMore choose.curr choose.inc fuel (choose.init n)
      = (List.range (n + 1)).map (Nat.choose n) := by
    have := choose_collect_aux n fuel 0 (Nat.zero_le _) (by omega)
    rw [Nat.sub_zero] at this
    rw [show choose.init n = (⟨n, 0, Nat.choose n 0⟩ : choose) by simp [choose.init],
      this, List.range_eq_range']
  refine ⟨hcollect, by rw [hcollect]; simp, ?_, ?_, ?_⟩
  · intro j
    rcases le_or_lt j n with hj | hj
    · rw [choose_iterate n j (Nat.le_succ_of_le hj)]
      simp [choose.hasMore, hj]
    · rw [choose_iterate_past n j hj]
      simp [choose.hasMore, hj]
  · intro k _
    exact ⟨Nat.choose n (k + 1), by rw [choose_recurrence n k, Nat.mul_comm]⟩
  · rw [hcollect, list_range_map_sum, Nat.sum_range_choose]

/-- Witness for C3 at `n = 4`, `fuel = 5`: `choose(4)` yields `1, 4, 6, 4, 1`,
which sum to `2^4 = 16`. -/
theorem C3_choose_row_witness :
    collect choose.hasMore choose.curr choose.inc 5 (choose.init 4) = [1, 4, 6, 4, 1]
    ∧ (collect choose.hasMore choose.curr choose.inc 5 (choose.init 4)).sum = 2 ^ 4 := by
  refine ⟨?_, (C3_choose_row 4 5 (by decide)).2.2.2.2⟩
  rw [(C3_choose_row 4 5 (by decide)).1]
  decide

/-- C2 counterexample: merging `[2, 3, 3]` with `[1, 3]` under `<` on `Nat`,
the constructor sets the bias flag to side 1 (`1 < 2`); the first advance draws
the strictly-lesser side 1.  At that state both sides still have more and side
0's current element 2 is strictly less than side 1's 3, so the second advance
draws side 0 — yet the bias flag stays `false` (side 1), not `true` (side 0) as
the claim's "the bias flag is set to that side" requires: `operator++` never
touches the flag in the strictly-lesser case. -/
theorem C2_merge2_counterexample :
    merge2.inc ltN (merge2.init ltN [2, 3, 3] [1, 3]) = ⟨[2, 3, 3], [3], false⟩
    ∧ ltN 2 3 = true
    ∧ merge2.inc ltN (merge2.inc ltN (merge2.init ltN [2, 3, 3] [1, 3]))
        = ⟨[3, 3], [3], false⟩ := by
  decide

/-- C2 (amended): on construction: if exactly one side has more, the bias flag
is set to that side; if both have more, the flag is set to side 0 unless side
1's element is strictly lesser (so the strictly-lesser side, with ties to side
0).  On each advance: if both sides have more and one current element is
strictly lesser, that side is drawn and the bias flag is left unchanged; if the
current elements compare equivalent, the side indicated by the flag is drawn
and the flag is flipped, so equal-valued runs interleave alternately; if
exactly one side has more, that side is drawn and the flag is set to that
side. -/
theorem C2_merge2_bias_rules {α : Type u} [Inhabited α] (lt : α → α → Bool)
    (a b : α) (l0 l1 : List α) (f : Bool) :
    merge2.init lt (a :: l0) (b :: l1) = ⟨a :: l0, b :: l1, !lt b a⟩
    ∧ merge2.init lt (a :: l0) [] = ⟨a :: l0, [], true⟩
    ∧ merge2.init lt [] (b :: l1) = ⟨[], b :: l1, false⟩
    ∧ (lt a b = true →
        merge2.curr lt ⟨a :: l0, b :: l1, f⟩ = a
        ∧ merge2.inc lt ⟨a :: l0, b :: l1, f⟩ = ⟨l0, b :: l1, f⟩)
    ∧ (lt a b = false → lt b a = true →
        merge2.curr lt ⟨a :: l0, b :: l1, f⟩ = b
        ∧ merge2.inc lt ⟨a :: l0, b :: l1, f⟩ = ⟨a :: l0, l1, f⟩)
    ∧ (lt a b = false → lt b a = false →
        merge2.curr lt ⟨a :: l0, b :: l1, f⟩ = (if f then a else b)
        ∧ merge2.inc lt ⟨a :: l0, b :: l1, f⟩
            = (if f then ⟨l0, b :: l1, false⟩ else ⟨a :: l0, l1, true⟩))
    ∧ (merge2.curr lt ⟨a :: l0, [], f⟩ = a
        ∧ merge2.inc lt ⟨a :: l0, [], f⟩ = ⟨l0, [], true⟩)
    ∧ (merge2.curr lt ⟨[], b :: l1, f⟩ = b
        ∧ merge2.inc lt ⟨[], b :: l1, f⟩ = ⟨[], l1, false⟩) := by
  refine ⟨?_, rfl, rfl, ?_, ?_, ?_, ⟨rfl, rfl⟩, ⟨rfl, rfl⟩⟩
  · by_cases h : lt b a = true
    · simp [merge2.init, h]
    · simp only [Bool.not_eq_true] at h
      simp [merge2.init, h]
  · intro h1
    exact ⟨by simp [merge2.curr, h1], by simp [merge2.inc, h1]⟩
  · intro h1 h2
    exact ⟨by simp [merge2.curr, h1, h2], by simp [merge2.inc, h1, h2]⟩
  · intro h1 h2
    refine ⟨by simp [merge2.curr, h1, h2], ?_⟩
    cases f <;> simp [merge2.inc, h1, h2]

/-- Witness for C2's amended theorem at `lt = ltN`, `a = 1`, `b = 1`,
`l0 = [2]`, `l1 = [3]`, `f = true`: equivalent heads, flag side 0 drawn, flag
flipped. -/
theorem C2_merge2_bias_rules_witness :
    merge2.curr ltN ⟨[1, 2], [1, 3], true⟩ = (if true then 1 else 1)
    ∧ merge2.inc ltN ⟨[1, 2], [1, 3], true⟩
        = (if true then (⟨[2], [1, 3], false⟩ : merge2 Nat) else ⟨[1, 2], [3], true⟩) :=
  (C2_merge2_bias_rules ltN 1 1 [2] [3] true).2.2.2.2.2.1 (by decide) (by decide)

theorem headI_drop {α : Type u} [Inhabited α] (l : List α) (k : Nat)
    (h : k < l.length) : (List.drop k l).headI = l.getD k default := by
  induction l generalizing k with
  | nil => exact absurd h (by simp)
  | cons x l ih =>
    cases k with
    | zero => rfl
    | succ k => simpa using ih k (by simpa using h)

theorem cyclic_iterate {α : Type u} (l : List α) (h : l ≠ []) (t : Nat) :
    cyclic.inc^[t] (cyclic.init l) = ⟨List.drop (t % l.length) l, l⟩ := by
  have hlen : 0 < l.length := List.length_pos.mpr h
  induction t with
  | zero =>
    rw [Nat.zero_mod, List.drop_zero]
    rfl
  | succ t ih =>
    rw [Function.iterate_succ_apply', ih]
    have hr : t % l.length < l.length := Nat.mod_lt _ hlen
    have htail : (List.drop (t % l.length) l).tail = List.drop (t % l.length + 1) l := by
      rw [← List.drop_one, List.drop_drop, Nat.add_comm]
    have hmod : (t % l.length + 1) % l.length = (t + 1) % l.length :=
      Nat.mod_add_mod t l.length 1
    rcases Nat.lt_or_ge (t % l.length + 1) l.length with hlt | hge
    · have hne : List.drop (t % l.length + 1) l ≠ [] := by
        apply List.ne_nil_of_length_pos
        rw [List.length_drop]
        omega
      have hmod2 : (t + 1) % l.length = t % l.length + 1 := by
        rw [← hmod, Nat.mod_eq_of_lt hlt]
      simp only [cyclic.inc, htail]
      rw [if_neg (by simpa [List.isEmpty_iff] using hne), hmod2]
    · have heq : t % l.length + 1 = l.length := by omega
      have hmod2 : (t + 1) % l.length = 0 := by
        rw [← hmod, heq, Nat.mod_self]
      simp [cyclic.inc, htail, heq, List.drop_length, hmod2]

/-- C7: cyclic repetition of a finite non-empty source always reports more
elements and, after `t` advances, yields the source element at index
`t mod length` — the source's elements in order, restarting from the saved
start each time the source is exhausted; for an empty source, `has_more()` is
false immediately and after every number of advances. -/
theorem C7_cyclic_repeat {α : Type u} [Inhabited α] (l : List α) (t : Nat) :
    (l ≠ [] →
      cyclic.hasMore (cyclic.inc^[t] (cyclic.init l)) = true
      ∧ cyclic.curr (cyclic.inc^[t] (cyclic.init l)) = l.getD (t % l.length) default)
    ∧ cyclic.hasMore (cyclic.inc^[t] (cyclic.init ([] : List α))) = false := by
  constructor
  · intro h
    have hlen : 0 < l.length := List.length_pos.mpr h
    have hr : t % l.length < l.length := Nat.mod_lt _ hlen
    rw [cyclic_iterate l h t]
    refine ⟨?_, headI_drop l _ hr⟩
    have hne : List.drop (t % l.length) l ≠ [] := by
      apply List.ne_nil_of_length_pos
      rw [List.length_drop]
      omega
    simpa [cyclic.hasMore, List.isEmpty_iff] using hne
  · rw [Function.iterate_fixed (by rfl : cyclic.inc (cyclic.init ([] : List α))
      = cyclic.init ([] : List α)) t]
    rfl

/-- Witness for C7 at `l = [1, 2, 3]`, `t = 4` (yields `2 = l[4 mod 3]`) and the
empty source. -/
theorem C7_cyclic_repeat_witness :
    cyclic.hasMore (cyclic.inc^[4] (cyclic.init [1, 2, 3])) = true
    ∧ cyclic.curr (cyclic.inc^[4] (cyclic.init [1, 2, 3]))
        = [1, 2, 3].getD (4 % [1, 2, 3].length) default :=
  (C7_cyclic_repeat [1, 2, 3] 4).1 (by decide)

/-- Witness for C4 at `p = is-even`, `l = [1, 2, 3]`, `s = [2, 3]`. -/
theorem C4_filter_invariant_witness :
    filter.inv (fun a : Nat => a % 2 == 0) (filter.mk (fun a : Nat => a % 2 == 0) [1, 2, 3]) = true
    ∧ filter.copy (fun a : Nat => a % 2 == 0) [2, 3] = [2, 3]
    ∧ (fun a : Nat => a % 2 == 0) (filter.curr [2, 3]) = true :=
  ⟨(C4_filter_invariant (fun a : Nat => a % 2 == 0) [1, 2, 3] [2, 3]).1,
   (C4_filter_invariant (fun a : Nat => a % 2 == 0) [1, 2, 3] [2, 3]).2.2.1 (by decide),
   (C4_filter_invariant (fun a : Nat => a % 2 == 0) [1, 2, 3] [2, 3]).2.2.2 (by decide) (by decide)⟩

end fms
